import Mathlib

/-!
# go-bytereel: file bytes to 4K frames and back

A shallow embedding of `src/src/main.go` (functions `encode`, `encodeFrame`,
`decode`) together with theorems about the bit-to-block codec.

Modelling conventions:

* a Go `byte` is a `Nat` below 256, a `[]byte` is a `List Nat`;
* the fixed-size array `[frameSizeBits]bool` is a `List Bool` of length
  `frameSizeBits`;
* an `*image.NRGBA` is a record of its bounds and its pixel function; `Set`
  and `At` follow the standard library (writes outside the bounds are
  dropped, reads outside the bounds give the zero colour); the image read by
  `decode` has `color.NRGBA` pixels, as a PNG with 8-bit RGBA samples has;
* `for` loops are left folds over the list of values of the loop variable;
* `encodeFrame` and `encode` are given by the final state of their loop: for
  `encodeFrame` the returned image together with the counter `k` and the
  lines printed, for `encode` the bit buffer and the goroutines launched;
* a goroutine launch is recorded in launch order together with the values
  that are copied into it;
* an index out of range (a Go run-time panic) is `none`;
* PNG encoding followed by PNG decoding is lossless and is not modelled;
* the two floating point expressions of `encode` (`math.Ceil` of a quotient
  and `math.Log10`) are modelled by their exact integer values.
-/

namespace ByteReel

/-! ## Constants -/

/-- Amount of bits in one 4K frame: `3840*2160/4`. -/
def frameSizeBits : Nat := 2073600

/-! ## Colours and images -/

/-- The type `color.NRGBA`: non-alpha-premultiplied 8-bit channels. -/
structure NRGBA where
  R : Nat
  G : Nat
  B : Nat
  A : Nat
deriving DecidableEq

/-- The literal `color.NRGBA{0, 0, 0, 255}`. -/
def black : NRGBA := ⟨0, 0, 0, 255⟩

/-- The literal `color.NRGBA{255, 255, 255, 255}`. -/
def white : NRGBA := ⟨255, 255, 255, 255⟩

/-- The literal `color.NRGBA{255, 0, 0, 255}`, the padding colour. -/
def red : NRGBA := ⟨255, 0, 0, 255⟩

/-- One channel of `color.NRGBA.RGBA`: `r |= r << 8; r *= a; r /= 0xff`. -/
def premul (c a : Nat) : Nat := (c ||| (c <<< 8)) * a / 0xff

/-- The method `color.NRGBA.RGBA`: alpha-premultiplied 16-bit channels. -/
def NRGBA.RGBA (c : NRGBA) : Nat × Nat × Nat × Nat :=
  (premul c.R c.A, premul c.G c.A, premul c.B c.A, c.A ||| (c.A <<< 8))

/-- An image with bounds `(0,0)-(Dx,Dy)` and its pixels. -/
structure Image where
  Dx : Nat
  Dy : Nat
  pix : Nat → Nat → NRGBA

/-- The function `image.NewNRGBA(image.Rect(0, 0, w, h))`: all pixels zero. -/
def NewNRGBA (w h : Nat) : Image := ⟨w, h, fun _ _ => ⟨0, 0, 0, 0⟩⟩

/-- The method `At`: the pixel at `(x, y)`, the zero colour outside the bounds. -/
def Image.At (img : Image) (x y : Nat) : NRGBA :=
  if x < img.Dx ∧ y < img.Dy then img.pix x y else ⟨0, 0, 0, 0⟩

/-- The method `Set`: overwrite the pixel at `(x, y)`; no effect outside the bounds. -/
def Image.Set (img : Image) (x y : Nat) (c : NRGBA) : Image :=
  if x < img.Dx ∧ y < img.Dy then
    { img with pix := fun x1 y1 => if x1 = x ∧ y1 = y then c else img.pix x1 y1 }
  else img

/-! ## Loops -/

/-- The values of `v` in `for v := 0; v < n; v += step`. -/
def forStep (n step : Nat) : List Nat :=
  (List.range ((n + step - 1) / step)).map (fun q => q * step)

/-! ## encodeFrame -/

/-- The state of the loop of `encodeFrame`: the counter `k`, the image, and the
lines printed on standard output. -/
structure FrameState where
  k : Nat
  img : Image
  out : List String

/-- The body of the inner loop of `encodeFrame` at block `(x, y)`. -/
def encodeFrameBlock (bits : List Bool) (x y : Nat) (s : FrameState) : FrameState :=
  if h : s.k < bits.length then
    let col : NRGBA := if bits[s.k] then ⟨0, 0, 0, 255⟩ else ⟨255, 255, 255, 255⟩
    { k := s.k + 1
      img := (((s.img.Set x y col).Set (x + 1) y col).Set x (y + 1) col).Set (x + 1) (y + 1) col
      out := s.out }
  else
    let col : NRGBA := ⟨255, 0, 0, 255⟩
    { k := s.k
      img := (((s.img.Set x y col).Set (x + 1) y col).Set x (y + 1) col).Set (x + 1) (y + 1) col
      out := s.out ++ ["END"] }

/-- The two nested loops of `encodeFrame`, `x` outer and `y` inner, stride 2,
over the bounds of the image in the state. -/
def encodeFrameLoop (bits : List Bool) (s : FrameState) : FrameState :=
  (forStep s.img.Dx 2).foldl
    (fun s x => (forStep s.img.Dy 2).foldl (fun s y => encodeFrameBlock bits x y s) s) s

/-- The function `encodeFrame`: the final state of its loop, started on a fresh
3840x2160 image with `k = 0`. The image it returns is the component `img`. -/
def encodeFrame (bits : List Bool) : FrameState :=
  encodeFrameLoop bits ⟨0, NewNRGBA 3840 2160, []⟩

/-! ## decode -/

/-- The body of the inner loop of the scan of `decode` at `(x, y)`. -/
def decodePixel (img : Image) (x y : Nat) (bits : List Bool) : List Bool :=
  match (img.At x y).RGBA with
  | (r, g, b, _) =>
    let isBlack := r == 0 && g == 0 && b == 0
    let isWhite := r == 0xFFFF && g == 0xFFFF && b == 0xFFFF
    if isBlack then bits ++ [true]
    else if isWhite then bits ++ [false]
    else bits

/-- The scan of `decode`: the bit sequence read off the image. -/
def decodeBits (img : Image) : List Bool :=
  (forStep img.Dx 2).foldl
    (fun bits x => (forStep img.Dy 2).foldl (fun bits y => decodePixel img x y bits) bits) []

/-- The inner loop of the conversion: eight bits starting at `i`, least
significant first; reading `bits[i+j]` out of range panics. -/
def packByte (bits : List Bool) (i : Nat) : Option Nat :=
  (List.range 8).foldlM
    (fun b j => (bits[i + j]?).map (fun bit => if bit then (b ||| (1 <<< j)) % 256 else b)) 0

/-- The bits-to-bytes conversion of `decode`; writing `bytes[i/8]` out of range
panics. -/
def bitsToBytes (bits : List Bool) : Option (List Nat) :=
  (forStep bits.length 8).foldlM
    (fun bytes i =>
      (packByte bits i).bind (fun b =>
        if i / 8 < bytes.length then some (bytes.set (i / 8) b) else none))
    (List.replicate (bits.length / 8) 0)

/-- The function `decode` up to the bytes it writes to the output file. -/
def decode (img : Image) : Option (List Nat) := bitsToBytes (decodeBits img)

/-! ## encode -/

/-- The decimal digits of `n`, most significant first (`%d`). -/
def decimal (n : Nat) : List Char :=
  if n = 0 then ['0'] else (Nat.digits 10 n).reverse.map Nat.digitChar

/-- The verb `%0<width>d` on a non-negative integer: at least `width`
characters, padded on the left with zeroes. -/
def zeroPad (width n : Nat) : List Char :=
  List.replicate (width - (decimal n).length) '0' ++ decimal n

/-- The path `fmt.Sprintf("tmp/out_%0"+strconv.Itoa(digits)+"d.png", frameNumber)`. -/
def fileName (digits frameNumber : Nat) : String :=
  String.mk ("tmp/out_".toList ++ zeroPad digits frameNumber ++ ".png".toList)

/-- The frame count `uint64(math.Ceil(float64(n) / float64(frameSizeBits/8)))`. -/
def totalFramesCnt (n : Nat) : Nat :=
  (n + frameSizeBits / 8 - 1) / (frameSizeBits / 8)

/-- The pad width `int(math.Log10(float64(n))) + 1`. -/
def digitsOf (n : Nat) : Nat := Nat.log 10 n + 1

/-- One `go func(bitsBuffer, fn)` launch: the frame number at the launch, the
file name, and the copy of the bit buffer passed by value. The goroutine
saves the image `(encodeFrame bitsBuffer).img` under `fileName`. -/
structure FrameTask where
  frameNumber : Nat
  fileName : String
  bitsBuffer : List Bool

/-- The state of the loop of `encode`: the bit buffer and the launches so far. -/
structure EncodeState where
  bitsBuffer : List Bool
  launched : List FrameTask

/-- The body of the inner loop of `encode` for byte index `i` and bit `j`. -/
def encodeStep (b : List Nat) (digits i j : Nat) (s : EncodeState) : EncodeState :=
  let frameNumber := i / (frameSizeBits / 8)
  let shift := frameNumber * frameSizeBits
  let bitIndex := i * 8 + j - shift
  let v := if i ≥ b.length then false else (b.getD i 0 &&& (1 <<< j)) != 0
  let buf := s.bitsBuffer.set bitIndex v
  if bitIndex = frameSizeBits - 1 ∨ (bitIndex : Int) = (b.length : Int) * 8 - 1 then
    { bitsBuffer := buf
      launched := s.launched ++ [⟨frameNumber, fileName digits frameNumber, buf⟩] }
  else
    { bitsBuffer := buf, launched := s.launched }

/-- The function `encode` from the bytes of the file on: the final state of its
loop. The component `launched` lists the goroutines it starts, in launch
order. -/
def encode (b : List Nat) : EncodeState :=
  let totalFrameBytes := totalFramesCnt b.length * frameSizeBits / 8
  let digits := digitsOf (totalFramesCnt b.length)
  (List.range totalFrameBytes).foldl
    (fun s i => (List.range 8).foldl (fun s j => encodeStep b digits i j s) s)
    ⟨List.replicate frameSizeBits false, []⟩

/-! ## Auxiliary definitions for the statements -/

/-- The four `Set` calls that colour the 2x2 block with top-left pixel `(x, y)`. -/
def setBlock (img : Image) (x y : Nat) (col : NRGBA) : Image :=
  (((img.Set x y col).Set (x + 1) y col).Set x (y + 1) col).Set (x + 1) (y + 1) col

/-- The colour `encodeFrame` gives to the block that is reached with counter `p`. -/
def blockColour (bits : List Bool) (p : Nat) : NRGBA :=
  if h : p < bits.length then (if bits[p] then black else white) else red

/-- The traversal position of the block that contains pixel `(x, y)` when each
column holds `ny` blocks. -/
def blockPos (ny x y : Nat) : Nat := (x / 2) * ny + y / 2


/-- The bit at position `g` of the bit stream of `b`, least significant bit of
each byte first, extended by `false` beyond the end of the file. -/
def streamBit (b : List Nat) (g : Nat) : Bool :=
  if g / 8 ≥ b.length then false else (b.getD (g / 8) 0 &&& (1 <<< (g % 8))) != 0

/-- The `frameSizeBits` bits of the zero-extended bit stream that belong to frame `f`. -/
def frameBits (b : List Nat) (f : Nat) : List Bool :=
  (List.range frameSizeBits).map (fun p => streamBit b (f * frameSizeBits + p))

/-- The launch for frame `f` with the complete bit buffer of that frame. -/
def frameTask (b : List Nat) (f : Nat) : FrameTask :=
  ⟨f, fileName (digitsOf (totalFramesCnt b.length)) f, frameBits b f⟩

/-- The classification of a sampled pixel in `decode`: `some true` when it is
taken for black, `some false` when it is taken for white, `none` when it
contributes no bit. -/
def classify (c : NRGBA) : Option Bool :=
  match c.RGBA with
  | (r, g, b, _) =>
    if (r == 0 && g == 0 && b == 0) = true then some true
    else if (r == 0xFFFF && g == 0xFFFF && b == 0xFFFF) = true then some false
    else none

/-- The byte assembled from eight bits `f 0 .. f 7`, least significant first, as
the inner loop of the conversion in `decode` does. -/
def byteOfBits (f : Nat → Bool) : Nat :=
  (List.range 8).foldl (fun b j => if f j then (b ||| (1 <<< j)) % 256 else b) 0

/-- The `frameSizeBits / 8` bytes of frame `f` of the file `b` extended by zero
bytes. -/
def frameBytes (b : List Nat) (f : Nat) : List Nat :=
  (List.range (frameSizeBits / 8)).map (fun q => b.getD (f * (frameSizeBits / 8) + q) 0)

/-- The decimal digits of `n` without the special case for zero (empty for 0). -/
def bareDigits (n : Nat) : List Char := (Nat.digits 10 n).reverse.map Nat.digitChar

/-- The last `w` decimal digits of `n`, most significant first. -/
def fixedWidth : Nat → Nat → List Char
  | 0, _ => []
  | w + 1, n => fixedWidth w (n / 10) ++ [Nat.digitChar (n % 10)]

/-- An image with every pixel of colour `c`. -/
def uniformImage (w h : Nat) (c : NRGBA) : Image := ⟨w, h, fun _ _ => c⟩

/-- A 3840x2160 image whose first five blocks in traversal order are black,
white, black, white, black and whose other blocks are red. -/
def paddedSample : Image :=
  ⟨3840, 2160, fun x y =>
    if blockPos 1080 x y < 5 then (if blockPos 1080 x y % 2 = 0 then black else white) else red⟩

/-! ## Loop invariants -/

/-- The loop invariant of `encodeFrame` after `n` blocks. -/
structure FrameInv (bits : List Bool) (img0 : Image) (nx ny n : Nat) (s : FrameState) : Prop where
  hk : s.k = min n bits.length
  hout : s.out = List.replicate (n - bits.length) "END"
  hDx : s.img.Dx = 2 * nx
  hDy : s.img.Dy = 2 * ny
  hpix : ∀ x y, x < 2 * nx → y < 2 * ny →
    s.img.At x y = if blockPos ny x y < n then blockColour bits (blockPos ny x y) else img0.At x y

/-- The state of `encode` after the first `q` bit positions of frame `f`, started
in state `s0`: the buffer holds the first `q` bits of the frame, a launch
happened at the last bit of the file when that lies strictly inside the
frame, and a launch happened at the end of the frame. -/
structure EncodeInv (b : List Nat) (d f : Nat) (s0 : EncodeState) (q : Nat)
    (s : EncodeState) : Prop where
  hbuf : s.bitsBuffer = (frameBits b f).take q ++ s0.bitsBuffer.drop q
  hlaunched : s.launched = s0.launched
    ++ (if 0 < b.length ∧ 8 * b.length < frameSizeBits ∧ 8 * b.length ≤ q then
          [⟨f, fileName d f,
            (frameBits b f).take (8 * b.length) ++ s0.bitsBuffer.drop (8 * b.length)⟩]
        else [])
    ++ (if q = frameSizeBits then [⟨f, fileName d f, frameBits b f⟩] else [])

/-- The state of `encode` after `n` whole frames when the file does not end
strictly inside the first frame. -/
structure LaunchInv (b : List Nat) (n : Nat) (s : EncodeState) : Prop where
  hlen : s.bitsBuffer.length = frameSizeBits
  hlaunched : s.launched = (List.range n).map (frameTask b)

/-- The state of `encode` after `n` whole frames when the file ends strictly
inside the first frame (there is only one frame then). -/
structure ShortInv (b : List Nat) (n : Nat) (s : EncodeState) : Prop where
  hinit : n = 0 → s = ⟨List.replicate frameSizeBits false, []⟩
  hlaunched : n = 1 → s.launched = [frameTask b 0, frameTask b 0]

/-- The byte buffer of the conversion after `n` complete groups. -/
structure BytesInv (bits : List Bool) (m n : Nat) (bytes : List Nat) : Prop where
  hlen : bytes.length = m
  hbyte : ∀ q (h : q < bytes.length), q < n →
    bytes[q] = byteOfBits (fun j => bits.getD (q * 8 + j) false)

/-! ## Folds over ranges -/

theorem foldl_range_succ {σ : Type} (f : σ → Nat → σ) (s : σ) (n : Nat) :
    (List.range (n + 1)).foldl f s = f ((List.range n).foldl f s) n := by
  rw [List.range_succ, List.foldl_append]; rfl

theorem foldl_range_inv {σ : Type} (P : Nat → σ → Prop) (f : σ → Nat → σ) (s : σ) (n : Nat)
    (h0 : P 0 s) (hstep : ∀ m t, m < n → P m t → P (m + 1) (f t m)) :
    P n ((List.range n).foldl f s) := by
  induction n with
  | zero => simpa using h0
  | succ n ih =>
    rw [foldl_range_succ]
    exact hstep n _ (Nat.lt_succ_self n)
      (ih (fun m t hm hp => hstep m t (Nat.lt_succ_of_lt hm) hp))

theorem foldl_range_congr {σ : Type} (P : σ → Prop) (f g : σ → Nat → σ) (s : σ) (n : Nat)
    (h0 : P s) (hstep : ∀ m t, m < n → P t → f t m = g t m ∧ P (g t m)) :
    (List.range n).foldl f s = (List.range n).foldl g s ∧ P ((List.range n).foldl g s) := by
  induction n with
  | zero => simpa using h0
  | succ n ih =>
    have ih1 := ih (fun m t hm hp => hstep m t (Nat.lt_succ_of_lt hm) hp)
    rw [foldl_range_succ, foldl_range_succ, ih1.1]
    exact hstep n _ (Nat.lt_succ_self n) ih1.2

theorem foldl_range_nested {σ : Type} (f : Nat → Nat → σ → σ) (s : σ) (a b : Nat) :
    (List.range a).foldl (fun s i => (List.range b).foldl (fun s j => f i j s) s) s
      = (List.range (a * b)).foldl (fun s p => f (p / b) (p % b) s) s := by
  induction a with
  | zero => simp
  | succ a ih =>
    rw [foldl_range_succ, ih, Nat.succ_mul, List.range_add, List.foldl_append, List.foldl_map]
    apply List.foldl_ext
    intro t j hj
    have hj1 : j < b := List.mem_range.mp hj
    have hb : 0 < b := by omega
    have h1 : (a * b + j) / b = a := by
      rw [Nat.mul_comm, Nat.mul_add_div hb, Nat.div_eq_of_lt hj1]; rfl
    have h2 : (a * b + j) % b = j := by
      rw [Nat.mul_comm, Nat.mul_add_mod, Nat.mod_eq_of_lt hj1]
    rw [h1, h2]

theorem forStep_two (m : Nat) : forStep (2 * m) 2 = (List.range m).map (fun q => q * 2) := by
  unfold forStep
  have : (2 * m + 2 - 1) / 2 = m := by omega
  rw [this]

theorem forStep_eight (m r : Nat) (hr : r < 8) :
    forStep (8 * m + r) 8
      = (List.range (if r = 0 then m else m + 1)).map (fun q => q * 8) := by
  unfold forStep
  have : (8 * m + r + 8 - 1) / 8 = (if r = 0 then m else m + 1) := by
    split <;> omega
  rw [this]

/-! ## Images -/

theorem Set_Dx (img : Image) (x y : Nat) (c : NRGBA) : (img.Set x y c).Dx = img.Dx := by
  unfold Image.Set; split <;> rfl

theorem Set_Dy (img : Image) (x y : Nat) (c : NRGBA) : (img.Set x y c).Dy = img.Dy := by
  unfold Image.Set; split <;> rfl

theorem At_Set (img : Image) (x y : Nat) (c : NRGBA) (x1 y1 : Nat)
    (hx : x < img.Dx) (hy : y < img.Dy) :
    (img.Set x y c).At x1 y1 = if x1 = x ∧ y1 = y then c else img.At x1 y1 := by
  have hS : img.Set x y c
      = { img with pix := fun x1 y1 => if x1 = x ∧ y1 = y then c else img.pix x1 y1 } := by
    unfold Image.Set; rw [if_pos ⟨hx, hy⟩]
  rw [hS]
  unfold Image.At
  by_cases h : x1 = x ∧ y1 = y
  · obtain ⟨rfl, rfl⟩ := h
    simp [hx, hy]
  · simp only [h, if_false]

theorem setBlock_Dx (img : Image) (x y : Nat) (c : NRGBA) : (setBlock img x y c).Dx = img.Dx := by
  simp [setBlock, Set_Dx]

theorem setBlock_Dy (img : Image) (x y : Nat) (c : NRGBA) : (setBlock img x y c).Dy = img.Dy := by
  simp [setBlock, Set_Dy]

theorem At_setBlock (img : Image) (x y : Nat) (c : NRGBA) (x1 y1 : Nat)
    (hx : x + 1 < img.Dx) (hy : y + 1 < img.Dy) :
    (setBlock img x y c).At x1 y1
      = if (x1 = x ∨ x1 = x + 1) ∧ (y1 = y ∨ y1 = y + 1) then c else img.At x1 y1 := by
  unfold setBlock
  rw [At_Set _ _ _ _ _ _ (by simp only [Set_Dx]; exact hx) (by simp only [Set_Dy]; exact hy),
    At_Set _ _ _ _ _ _ (by simp only [Set_Dx]; omega) (by simp only [Set_Dy]; exact hy),
    At_Set _ _ _ _ _ _ (by simp only [Set_Dx]; exact hx) (by simp only [Set_Dy]; omega),
    At_Set _ _ _ _ _ _ (by omega) (by omega)]
  by_cases h1 : x1 = x <;> by_cases h2 : x1 = x + 1 <;> by_cases h3 : y1 = y <;>
    by_cases h4 : y1 = y + 1 <;> simp [h1, h2, h3, h4]

theorem encodeFrameBlock_eq (bits : List Bool) (x y : Nat) (s : FrameState) :
    encodeFrameBlock bits x y s
      = ⟨if s.k < bits.length then s.k + 1 else s.k,
         setBlock s.img x y (blockColour bits s.k),
         if s.k < bits.length then s.out else s.out ++ ["END"]⟩ := by
  unfold encodeFrameBlock blockColour setBlock black white red
  by_cases h : s.k < bits.length
  · simp only [h, dite_true, if_true]
  · simp only [h, dite_false, if_false]

theorem blockPos_eq_iff (ny x y n : Nat) (hy : y < 2 * ny) :
    blockPos ny x y = n ↔
      (x = n / ny * 2 ∨ x = n / ny * 2 + 1) ∧ (y = n % ny * 2 ∨ y = n % ny * 2 + 1) := by
  have hny : 0 < ny := by omega
  have hy2 : y / 2 < ny := by omega
  have key : n / ny = x / 2 ∧ n % ny = y / 2 ↔ y / 2 + ny * (x / 2) = n ∧ y / 2 < ny :=
    Nat.div_mod_unique hny
  unfold blockPos
  constructor
  · intro h
    have h2 := key.mpr ⟨by rw [Nat.mul_comm]; omega, hy2⟩
    omega
  · intro h
    have hm : n % ny < ny := Nat.mod_lt _ hny
    have h3 : n / ny = x / 2 ∧ n % ny = y / 2 := by omega
    have h4 := (key.mp h3).1
    rw [Nat.mul_comm]; omega

/-! ## encodeFrame: the loop -/

theorem encodeFrameBlock_Dx (bits : List Bool) (x y : Nat) (s : FrameState) :
    (encodeFrameBlock bits x y s).img.Dx = s.img.Dx := by
  rw [encodeFrameBlock_eq]; exact setBlock_Dx _ _ _ _

theorem encodeFrameBlock_Dy (bits : List Bool) (x y : Nat) (s : FrameState) :
    (encodeFrameBlock bits x y s).img.Dy = s.img.Dy := by
  rw [encodeFrameBlock_eq]; exact setBlock_Dy _ _ _ _

/-- The nested loops of `encodeFrame` visit the blocks in traversal order:
position `p` is the block with top-left pixel `(2*(p/ny), 2*(p%ny))`. -/
theorem encodeFrameLoop_flat (bits : List Bool) (s : FrameState) (nx ny : Nat)
    (hx : s.img.Dx = 2 * nx) (hy : s.img.Dy = 2 * ny) :
    encodeFrameLoop bits s
      = (List.range (nx * ny)).foldl
          (fun s p => encodeFrameBlock bits (p / ny * 2) (p % ny * 2) s) s := by
  unfold encodeFrameLoop
  rw [hx, forStep_two, List.foldl_map]
  have h := foldl_range_congr (fun t : FrameState => t.img.Dy = 2 * ny)
    (fun s q => (forStep s.img.Dy 2).foldl (fun s y => encodeFrameBlock bits (q * 2) y s) s)
    (fun s q => (List.range ny).foldl (fun s r => encodeFrameBlock bits (q * 2) (r * 2) s) s)
    s nx hy (by
      intro m t _ ht
      constructor
      · show (forStep t.img.Dy 2).foldl _ t = _
        rw [ht, forStep_two, List.foldl_map]
      · exact foldl_range_inv (fun _ u => u.img.Dy = 2 * ny) _ t ny ht
          (fun r u _ hu => by
            show (encodeFrameBlock bits (m * 2) (r * 2) u).img.Dy = 2 * ny
            rw [encodeFrameBlock_Dy]; exact hu))
  rw [h.1]
  exact foldl_range_nested (fun i j s => encodeFrameBlock bits (i * 2) (j * 2) s) s nx ny

theorem blockColour_of_le (bits : List Bool) (p : Nat) (h : bits.length ≤ p) :
    blockColour bits p = red := by
  unfold blockColour; rw [dif_neg (by omega)]

theorem frameInv_step (bits : List Bool) (img0 : Image) (nx ny n : Nat) (s : FrameState)
    (hn : n < nx * ny) (h : FrameInv bits img0 nx ny n s) :
    FrameInv bits img0 nx ny (n + 1) (encodeFrameBlock bits (n / ny * 2) (n % ny * 2) s) := by
  have hny : 0 < ny := by
    rcases Nat.eq_zero_or_pos ny with h0 | h0
    · subst h0; simp at hn
    · exact h0
  have hmod : n % ny < ny := Nat.mod_lt _ hny
  have hdiv : n / ny < nx := by
    rw [Nat.div_lt_iff_lt_mul hny]; exact hn
  have hcol : blockColour bits s.k = blockColour bits n := by
    rw [h.hk]
    rcases Nat.lt_or_ge n bits.length with hl | hl
    · rw [Nat.min_eq_left (Nat.le_of_lt hl)]
    · rw [Nat.min_eq_right hl, blockColour_of_le _ _ (Nat.le_refl _), blockColour_of_le _ _ hl]
  rw [encodeFrameBlock_eq, hcol]
  refine ⟨?_, ?_, ?_, ?_, ?_⟩
  · show (if s.k < bits.length then s.k + 1 else s.k) = min (n + 1) bits.length
    rw [h.hk]; split <;> omega
  · show (if s.k < bits.length then s.out else s.out ++ ["END"]) = _
    rw [h.hk, h.hout]
    rcases Nat.lt_or_ge n bits.length with hl | hl
    · rw [if_pos (by omega)]
      have e1 : n - bits.length = 0 := by omega
      have e2 : n + 1 - bits.length = 0 := by omega
      rw [e1, e2]
    · rw [if_neg (by omega)]
      have e2 : n + 1 - bits.length = (n - bits.length) + 1 := by omega
      rw [e2, List.replicate_succ']
  · show (setBlock s.img _ _ _).Dx = _
    rw [setBlock_Dx]; exact h.hDx
  · show (setBlock s.img _ _ _).Dy = _
    rw [setBlock_Dy]; exact h.hDy
  · intro x y hx hy
    show (setBlock s.img _ _ _).At x y = _
    rw [At_setBlock _ _ _ _ _ _ (by rw [h.hDx]; omega) (by rw [h.hDy]; omega), h.hpix x y hx hy]
    have hiff := blockPos_eq_iff ny x y n hy
    by_cases hb : blockPos ny x y = n
    · rw [if_pos (hiff.mp hb), if_pos (by omega), hb]
    · rw [if_neg (fun hc => hb (hiff.mpr hc))]
      by_cases hlt : blockPos ny x y < n
      · rw [if_pos hlt, if_pos (by omega)]
      · rw [if_neg hlt, if_neg (by omega)]

theorem frameInv_loop (bits : List Bool) (img0 : Image) (nx ny : Nat)
    (hx : img0.Dx = 2 * nx) (hy : img0.Dy = 2 * ny) :
    FrameInv bits img0 nx ny (nx * ny) (encodeFrameLoop bits ⟨0, img0, []⟩) := by
  rw [encodeFrameLoop_flat bits _ nx ny hx hy]
  refine foldl_range_inv (FrameInv bits img0 nx ny) _ _ (nx * ny) ?_ ?_
  · refine ⟨?_, ?_, hx, hy, ?_⟩
    · show 0 = min 0 bits.length
      omega
    · show ([] : List String) = List.replicate (0 - bits.length) "END"
      simp
    · intro x y _ _
      rw [if_neg (by omega)]
  · intro m t hm ht
    exact frameInv_step bits img0 nx ny m t hm ht

theorem frameInv_run (bits : List Bool) :
    FrameInv bits (NewNRGBA 3840 2160) 1920 1080 frameSizeBits (encodeFrame bits) :=
  frameInv_loop bits (NewNRGBA 3840 2160) 1920 1080 rfl rfl
/-! ## encode: the loop -/

theorem frameSizeBits_eq : frameSizeBits = 2073600 := rfl

theorem frameBits_length (b : List Nat) (f : Nat) : (frameBits b f).length = frameSizeBits := by
  unfold frameBits; rw [List.length_map, List.length_range]

theorem frameBits_getElem (b : List Nat) (f p : Nat) (h : p < (frameBits b f).length) :
    (frameBits b f)[p] = streamBit b (f * frameSizeBits + p) := by
  unfold frameBits; rw [List.getElem_map, List.getElem_range]

/-- The body of the loop of `encode` at global bit position `g`. -/
theorem encodeStep_flat (b : List Nat) (d g : Nat) (s : EncodeState) :
    encodeStep b d (g / 8) (g % 8) s
      = if g % frameSizeBits = frameSizeBits - 1
            ∨ ((g % frameSizeBits : Nat) : Int) = (b.length : Int) * 8 - 1 then
          ⟨s.bitsBuffer.set (g % frameSizeBits) (streamBit b g),
           s.launched ++ [⟨g / frameSizeBits, fileName d (g / frameSizeBits),
             s.bitsBuffer.set (g % frameSizeBits) (streamBit b g)⟩]⟩
        else ⟨s.bitsBuffer.set (g % frameSizeBits) (streamBit b g), s.launched⟩ := by
  have h1 : g / 8 / (2073600 / 8) = g / 2073600 := by omega
  have h2 : g / 8 * 8 + g % 8 - g / 2073600 * 2073600 = g % 2073600 := by omega
  unfold encodeStep streamBit
  simp only [frameSizeBits_eq, h1, h2]

theorem set_take_drop (F B : List Bool) (q : Nat) (hF : q < F.length) (hB : B.length = F.length) :
    (F.take q ++ B.drop q).set q F[q] = F.take (q + 1) ++ B.drop (q + 1) := by
  apply List.ext_getElem
  · simp only [List.length_set, List.length_append, List.length_take, List.length_drop]
    omega
  · intro n h1 h2
    simp only [List.length_append, List.length_take, List.length_drop] at h2
    rw [List.getElem_set]
    by_cases hn : q = n
    · subst hn
      rw [if_pos rfl, List.getElem_append_left (by simp only [List.length_take]; omega),
        List.getElem_take]
    · rw [if_neg hn]
      by_cases hlt : n < q
      · rw [List.getElem_append_left (by simp only [List.length_take]; omega),
          List.getElem_append_left (by simp only [List.length_take]; omega),
          List.getElem_take, List.getElem_take]
      · rw [List.getElem_append_right (by simp only [List.length_take]; omega),
          List.getElem_append_right (by simp only [List.length_take]; omega),
          List.getElem_drop, List.getElem_drop]
        congr 1
        simp only [List.length_take]
        omega
theorem take_drop_full (F B : List Bool) (n : Nat) (hF : F.length = n) (hB : B.length = n) :
    F.take n ++ B.drop n = F := by
  rw [List.take_of_length_le (by omega), List.drop_of_length_le (by omega), List.append_nil]

theorem encodeInv_step (b : List Nat) (d f : Nat) (s0 : EncodeState) (q : Nat) (s : EncodeState)
    (hq : q < frameSizeBits) (hB : s0.bitsBuffer.length = frameSizeBits)
    (h : EncodeInv b d f s0 q s) :
    EncodeInv b d f s0 (q + 1)
      (encodeStep b d ((f * frameSizeBits + q) / 8) ((f * frameSizeBits + q) % 8) s) := by
  have hC := frameSizeBits_eq
  have hFl := frameBits_length b f
  have hmod : (f * frameSizeBits + q) % frameSizeBits = q := by
    rw [Nat.mul_comm, Nat.mul_add_mod, Nat.mod_eq_of_lt hq]
  have hdiv : (f * frameSizeBits + q) / frameSizeBits = f := by
    rw [Nat.mul_comm, Nat.mul_add_div (by omega), Nat.div_eq_of_lt hq]; rfl
  have hbuf : s.bitsBuffer.set q (streamBit b (f * frameSizeBits + q))
      = (frameBits b f).take (q + 1) ++ s0.bitsBuffer.drop (q + 1) := by
    rw [h.hbuf, ← frameBits_getElem b f q (by omega)]
    exact set_take_drop _ _ q (by omega) (by omega)
  rw [encodeStep_flat, hmod, hdiv, hbuf]
  have hl := h.hlaunched
  by_cases hend : q = frameSizeBits - 1
  · rw [if_pos (Or.inl hend)]
    refine ⟨rfl, ?_⟩
    show s.launched ++ _ = _
    have c1 : ¬ q = frameSizeBits := by omega
    have c2 : q + 1 = frameSizeBits := by omega
    have c3 : (0 < b.length ∧ 8 * b.length < frameSizeBits ∧ 8 * b.length ≤ q + 1)
        ↔ (0 < b.length ∧ 8 * b.length < frameSizeBits ∧ 8 * b.length ≤ q) := by omega
    have hfull : (frameBits b f).take (q + 1) ++ s0.bitsBuffer.drop (q + 1) = frameBits b f := by
      rw [c2]; exact take_drop_full _ _ _ hFl hB
    rw [hl, hfull, if_neg c1, if_pos c2, List.append_nil]
    by_cases he : 0 < b.length ∧ 8 * b.length < frameSizeBits ∧ 8 * b.length ≤ q
    · rw [if_pos he, if_pos (c3.mpr he)]
    · rw [if_neg he, if_neg (fun hc => he (c3.mp hc))]
  · by_cases hfile : ((q : Nat) : Int) = (b.length : Int) * 8 - 1
    · rw [if_pos (Or.inr hfile)]
      refine ⟨rfl, ?_⟩
      show s.launched ++ _ = _
      have hq1 : q + 1 = 8 * b.length := by omega
      have c1 : ¬ q = frameSizeBits := by omega
      have c2 : ¬ q + 1 = frameSizeBits := by omega
      have c3 : 0 < b.length ∧ 8 * b.length < frameSizeBits ∧ 8 * b.length ≤ q + 1 :=
        ⟨by omega, by omega, by omega⟩
      have c4 : ¬ (0 < b.length ∧ 8 * b.length < frameSizeBits ∧ 8 * b.length ≤ q) := by omega
      rw [hl, if_neg c1, if_neg c4, if_neg c2, if_pos c3, hq1, List.append_nil, List.append_nil,
        List.append_nil]
    · rw [if_neg (by rintro (hc | hc); exacts [hend hc, hfile hc])]
      refine ⟨rfl, ?_⟩
      show s.launched = _
      have c1 : ¬ q = frameSizeBits := by omega
      have c2 : ¬ q + 1 = frameSizeBits := by omega
      have c3 : (0 < b.length ∧ 8 * b.length < frameSizeBits ∧ 8 * b.length ≤ q + 1)
          ↔ (0 < b.length ∧ 8 * b.length < frameSizeBits ∧ 8 * b.length ≤ q) := by omega
      rw [hl, if_neg c1, if_neg c2, List.append_nil, List.append_nil]
      by_cases he : 0 < b.length ∧ 8 * b.length < frameSizeBits ∧ 8 * b.length ≤ q
      · rw [if_pos he, if_pos (c3.mpr he)]
      · rw [if_neg he, if_neg (fun hc => he (c3.mp hc))]

/-- The effect of the loop of `encode` on one whole frame `f`. -/
theorem encodeInv_frame (b : List Nat) (d f : Nat) (s0 : EncodeState)
    (hB : s0.bitsBuffer.length = frameSizeBits) :
    EncodeInv b d f s0 frameSizeBits
      ((List.range frameSizeBits).foldl
        (fun s q => encodeStep b d ((f * frameSizeBits + q) / 8) ((f * frameSizeBits + q) % 8) s)
        s0) := by
  refine foldl_range_inv (EncodeInv b d f s0) _ s0 frameSizeBits ?_ ?_
  · refine ⟨?_, ?_⟩
    · rw [List.take_zero, List.drop_zero, List.nil_append]
    · have hC := frameSizeBits_eq
      rw [if_neg (by omega), if_neg (by omega), List.append_nil, List.append_nil]
  · intro m t hm ht
    exact encodeInv_step b d f s0 m t hm hB ht
/-- The loop of `encode` over one frame, as a function of the frame index. -/
theorem encode_loop_by_frames (b : List Nat) (d n : Nat) (s0 : EncodeState) :
    (List.range (n * frameSizeBits / 8)).foldl
        (fun s i => (List.range 8).foldl (fun s j => encodeStep b d i j s) s) s0
      = (List.range n).foldl
          (fun s f => (List.range frameSizeBits).foldl
            (fun s q =>
              encodeStep b d ((f * frameSizeBits + q) / 8) ((f * frameSizeBits + q) % 8) s) s)
          s0 := by
  have hC := frameSizeBits_eq
  rw [foldl_range_nested (fun i j s => encodeStep b d i j s),
    foldl_range_nested
      (fun f q s => encodeStep b d ((f * frameSizeBits + q) / 8) ((f * frameSizeBits + q) % 8) s)]
  have e1 : n * frameSizeBits / 8 * 8 = n * frameSizeBits := by rw [hC]; omega
  rw [e1]
  apply List.foldl_ext
  intro s g _
  have e2 : g / frameSizeBits * frameSizeBits + g % frameSizeBits = g := Nat.div_add_mod' g _
  show encodeStep b d (g / 8) (g % 8) s = encodeStep b d (_ / 8) (_ % 8) s
  rw [e2]

theorem streamBit_of_le (b : List Nat) (g : Nat) (h : 8 * b.length ≤ g) : streamBit b g = false := by
  unfold streamBit; rw [if_pos (by omega)]

theorem frameBits_short (b : List Nat) (h : 8 * b.length < frameSizeBits) :
    (frameBits b 0).take (8 * b.length) ++ (List.replicate frameSizeBits false).drop (8 * b.length)
      = frameBits b 0 := by
  have hFl := frameBits_length b 0
  apply List.ext_getElem
  · simp only [List.length_append, List.length_take, List.length_drop, List.length_replicate]
    omega
  · intro n h1 h2
    by_cases hn : n < 8 * b.length
    · rw [List.getElem_append_left (by simp only [List.length_take]; omega), List.getElem_take]
    · rw [List.getElem_append_right (by simp only [List.length_take]; omega), List.getElem_drop,
        List.getElem_replicate, frameBits_getElem, streamBit_of_le _ _ (by omega)]

theorem encode_eq (b : List Nat) :
    encode b = (List.range (totalFramesCnt b.length * frameSizeBits / 8)).foldl
      (fun s i => (List.range 8).foldl
        (fun s j => encodeStep b (digitsOf (totalFramesCnt b.length)) i j s) s)
      ⟨List.replicate frameSizeBits false, []⟩ := by
  unfold encode
  simp only []

theorem launchInv_step (b : List Nat)
    (h : ¬ (0 < b.length ∧ 8 * b.length < frameSizeBits)) (m : Nat) (t : EncodeState)
    (ht : LaunchInv b m t) :
    LaunchInv b (m + 1) ((List.range frameSizeBits).foldl
      (fun s q => encodeStep b (digitsOf (totalFramesCnt b.length))
        ((m * frameSizeBits + q) / 8) ((m * frameSizeBits + q) % 8) s) t) := by
  have hinv := encodeInv_frame b (digitsOf (totalFramesCnt b.length)) m t ht.hlen
  constructor
  · rw [hinv.hbuf, take_drop_full _ _ _ (frameBits_length b m) ht.hlen, frameBits_length]
  · rw [hinv.hlaunched, if_neg (fun hc => h ⟨hc.1, hc.2.1⟩), if_pos rfl, List.append_nil,
      ht.hlaunched, List.range_succ, List.map_append]
    rfl

/-- The launches of `encode` when the file does not end strictly inside the first
frame: one launch per frame, in frame order, each with the full bit buffer of
its frame. -/
theorem encode_launches_long (b : List Nat)
    (h : ¬ (0 < b.length ∧ 8 * b.length < frameSizeBits)) :
    (encode b).launched = (List.range (totalFramesCnt b.length)).map (frameTask b) := by
  rw [encode_eq, encode_loop_by_frames]
  exact (foldl_range_inv (LaunchInv b) _ _ (totalFramesCnt b.length)
    ⟨List.length_replicate _ _, rfl⟩
    (fun m t _ ht => launchInv_step b h m t ht)).hlaunched

theorem totalFramesCnt_short (n : Nat) (h0 : 0 < n) (h : 8 * n < frameSizeBits) :
    totalFramesCnt n = 1 := by
  unfold totalFramesCnt
  rw [frameSizeBits_eq] at h ⊢
  omega

theorem shortInv_step (b : List Nat) (h0 : 0 < b.length) (h : 8 * b.length < frameSizeBits) :
    ShortInv b 1 ((List.range frameSizeBits).foldl
      (fun s q => encodeStep b (digitsOf 1)
        ((0 * frameSizeBits + q) / 8) ((0 * frameSizeBits + q) % 8) s)
      ⟨List.replicate frameSizeBits false, []⟩) := by
  have hinv := encodeInv_frame b (digitsOf 1) 0 ⟨List.replicate frameSizeBits false, []⟩
    (List.length_replicate _ _)
  refine ⟨fun hc => absurd hc (by omega), fun _ => ?_⟩
  rw [hinv.hlaunched, if_pos ⟨h0, h, Nat.le_of_lt h⟩, if_pos rfl]
  show [_] ++ [_] = _
  rw [frameBits_short b h]
  unfold frameTask
  rw [totalFramesCnt_short _ h0 h]
  rfl

/-- The launches of `encode` when the file ends strictly inside the first frame:
two launches for frame 0, one at the last bit of the file and one at the end of
the frame, with the same file name and the same bit buffer. -/
theorem encode_launches_short (b : List Nat) (h0 : 0 < b.length)
    (h : 8 * b.length < frameSizeBits) :
    (encode b).launched = [frameTask b 0, frameTask b 0] := by
  rw [encode_eq, encode_loop_by_frames, totalFramesCnt_short _ h0 h]
  exact (foldl_range_inv (ShortInv b) _ _ 1 ⟨fun _ => rfl, fun hc => absurd hc (by omega)⟩
    (fun m t hm ht => by
      have hm0 : m = 0 := by omega
      subst hm0
      rw [ht.hinit rfl]
      exact shortInv_step b h0 h)).hlaunched rfl
/-! ## decode: the scan -/

theorem decodePixel_eq (img : Image) (x y : Nat) (bits : List Bool) :
    decodePixel img x y bits = bits ++ (classify (img.At x y)).toList := by
  unfold decodePixel classify
  simp only []
  split
  · simp
  · split <;> simp

theorem foldl_append_toList (g : Nat → Option Bool) (init : List Bool) (n : Nat) :
    (List.range n).foldl (fun acc p => acc ++ (g p).toList) init
      = init ++ (List.range n).filterMap g := by
  induction n with
  | zero => simp
  | succ n ih =>
    rw [foldl_range_succ, ih, List.range_succ, List.filterMap_append, List.append_assoc]
    cases h : g n <;> simp [h]

/-- The scan of `decode` reads the blocks in traversal order and keeps the
classified ones. -/
theorem decodeBits_eq (img : Image) (nx ny : Nat) (hx : img.Dx = 2 * nx) (hy : img.Dy = 2 * ny) :
    decodeBits img
      = (List.range (nx * ny)).filterMap (fun p => classify (img.At (p / ny * 2) (p % ny * 2))) := by
  unfold decodeBits
  rw [hx, hy, forStep_two, forStep_two, List.foldl_map]
  have h1 : (fun (bits : List Bool) (q : Nat) =>
        List.foldl (fun bits y => decodePixel img (q * 2) y bits) bits
          (List.map (fun r => r * 2) (List.range ny)))
      = (fun bits q => (List.range ny).foldl
          (fun bits r => bits ++ (classify (img.At (q * 2) (r * 2))).toList) bits) := by
    funext bits q
    rw [List.foldl_map]
    apply List.foldl_ext
    intro acc r _
    exact decodePixel_eq img (q * 2) (r * 2) acc
  rw [h1, foldl_range_nested
    (fun i j (bits : List Bool) => bits ++ (classify (img.At (i * 2) (j * 2))).toList),
    foldl_append_toList, List.nil_append]

theorem classify_black : classify black = some true := by decide
theorem classify_white : classify white = some false := by decide
theorem classify_red : classify red = none := by decide

theorem classify_blockColour (bits : List Bool) (p : Nat) :
    classify (blockColour bits p) = bits[p]? := by
  unfold blockColour
  by_cases h : p < bits.length
  · rw [dif_pos h, List.getElem?_eq_getElem h]
    cases bits[p]
    · simp [classify_white]
    · simp [classify_black]
  · rw [dif_neg h, List.getElem?_eq_none (by omega), classify_red]

theorem filterMap_getElem? (l : List Bool) (n : Nat) (h : l.length = n) :
    (List.range n).filterMap (fun p => l[p]?) = l := by
  subst h
  have : (List.range l.length).filterMap (fun p => l[p]?)
      = (List.range l.length).filterMap (some ∘ fun p => l.getD p false) := by
    apply List.filterMap_congr
    intro p hp
    have hp1 := List.mem_range.mp hp
    simp [List.getElem?_eq_getElem hp1, List.getD_eq_getElem _ _ hp1]
  rw [this, List.filterMap_eq_map]
  apply List.ext_getElem
  · simp
  · intro i h1 h2
    simp [List.getElem?_eq_getElem h2]
/-! ## The image of `encodeFrame` -/

theorem blocks_eq : 1920 * 1080 = frameSizeBits := by decide

theorem blockPos_topLeft (p : Nat) : blockPos 1080 (p / 1080 * 2) (p % 1080 * 2) = p := by
  unfold blockPos; omega

/-- Every pixel of the image of `encodeFrame` has the colour of its block. -/
theorem encodeFrame_At (bits : List Bool) (x y : Nat) (hx : x < 3840) (hy : y < 2160) :
    (encodeFrame bits).img.At x y = blockColour bits (blockPos 1080 x y) := by
  have inv := frameInv_run bits
  have hlt : blockPos 1080 x y < frameSizeBits := by
    unfold blockPos; rw [frameSizeBits_eq]; omega
  rw [inv.hpix x y (by omega) (by omega), if_pos hlt]

/-- Scanning the image of `encodeFrame` gives back the bits that lie within the
frame. -/
theorem decodeBits_encodeFrame (bits : List Bool) :
    decodeBits (encodeFrame bits).img = (List.range frameSizeBits).filterMap (fun p => bits[p]?) := by
  have inv := frameInv_run bits
  rw [decodeBits_eq _ 1920 1080 inv.hDx inv.hDy, blocks_eq]
  apply List.filterMap_congr
  intro p hp
  have hp1 : p < frameSizeBits := List.mem_range.mp hp
  rw [frameSizeBits_eq] at hp1
  rw [encodeFrame_At bits _ _ (by omega) (by omega), blockPos_topLeft, classify_blockColour]

theorem decodeBits_encodeFrame_full (bits : List Bool) (h : bits.length = frameSizeBits) :
    decodeBits (encodeFrame bits).img = bits := by
  rw [decodeBits_encodeFrame, filterMap_getElem? bits _ h]
/-! ## decode: bits to bytes -/

theorem packByte_loop_some (bits : List Bool) (i : Nat) (js : List Nat) (b0 : Nat)
    (h : ∀ j ∈ js, i + j < bits.length) :
    js.foldlM
        (fun b j => (bits[i + j]?).map (fun bit => if bit then (b ||| (1 <<< j)) % 256 else b)) b0
      = some (js.foldl
          (fun b j => if bits.getD (i + j) false then (b ||| (1 <<< j)) % 256 else b) b0) := by
  induction js generalizing b0 with
  | nil => rfl
  | cons j js ih =>
    have hj : i + j < bits.length := h j (List.mem_cons_self _ _)
    rw [List.foldlM_cons, List.getElem?_eq_getElem hj, List.foldl_cons,
      List.getD_eq_getElem _ _ hj]
    exact ih _ (fun j1 h1 => h j1 (List.mem_cons_of_mem _ h1))

theorem packByte_loop_none (bits : List Bool) (i : Nat) (js : List Nat) (b0 : Nat)
    (h : ∃ j ∈ js, bits.length ≤ i + j) :
    js.foldlM
        (fun b j => (bits[i + j]?).map (fun bit => if bit then (b ||| (1 <<< j)) % 256 else b)) b0
      = none := by
  induction js generalizing b0 with
  | nil => obtain ⟨j, hj, _⟩ := h; cases hj
  | cons j js ih =>
    rw [List.foldlM_cons]
    by_cases hj : bits.length ≤ i + j
    · rw [List.getElem?_eq_none hj]; rfl
    · rw [List.getElem?_eq_getElem (by omega)]
      obtain ⟨j1, hj1, hlen⟩ := h
      rcases List.mem_cons.mp hj1 with rfl | hmem
      · exact absurd hlen hj
      · exact ih _ ⟨j1, hmem, hlen⟩

/-- A complete group of eight bits is packed into a byte. -/
theorem packByte_full (bits : List Bool) (i : Nat) (h : i + 8 ≤ bits.length) :
    packByte bits i = some (byteOfBits (fun j => bits.getD (i + j) false)) := by
  unfold packByte byteOfBits
  exact packByte_loop_some bits i _ 0
    (fun j hj => by have := List.mem_range.mp hj; omega)

/-- An incomplete group of bits makes the inner loop read out of range. -/
theorem packByte_incomplete (bits : List Bool) (i : Nat) (h : bits.length < i + 8) :
    packByte bits i = none := by
  unfold packByte
  exact packByte_loop_none bits i _ 0
    ⟨7, List.mem_range.mpr (by omega), by omega⟩

theorem bind_const_none {α β : Type} (o : Option α) (f : α → Option β) (hf : ∀ a, f a = none) :
    o.bind f = none := by
  cases o with
  | none => rfl
  | some a => exact hf a

theorem foldlM_range_succ {σ : Type} (f : σ → Nat → Option σ) (s : σ) (n : Nat) :
    (List.range (n + 1)).foldlM f s = ((List.range n).foldlM f s).bind (fun t => f t n) := by
  rw [List.range_succ, List.foldlM_append]
  cases (List.range n).foldlM f s with
  | none => rfl
  | some t => simp [List.foldlM_cons]

theorem foldlM_range_inv {σ : Type} (P : Nat → σ → Prop) (f : σ → Nat → Option σ) (s : σ)
    (n : Nat) (h0 : P 0 s)
    (hstep : ∀ m t, m < n → P m t → ∃ u, f t m = some u ∧ P (m + 1) u) :
    ∃ u, (List.range n).foldlM f s = some u ∧ P n u := by
  induction n with
  | zero => exact ⟨s, rfl, h0⟩
  | succ n ih =>
    obtain ⟨t, ht, hP⟩ := ih (fun m t hm hp => hstep m t (Nat.lt_succ_of_lt hm) hp)
    obtain ⟨u, hu, hPu⟩ := hstep n t (Nat.lt_succ_self n) hP
    exact ⟨u, by rw [foldlM_range_succ, ht]; exact hu, hPu⟩

/-- On a bit sequence made of `m` complete groups of eight the conversion
returns `m` bytes, byte `q` packed from bits `8q .. 8q+7`. -/
theorem bitsToBytes_full (bits : List Bool) (m : Nat) (h : bits.length = 8 * m) :
    bitsToBytes bits
      = some ((List.range m).map (fun q => byteOfBits (fun j => bits.getD (q * 8 + j) false))) := by
  unfold bitsToBytes
  have hfs := forStep_eight m 0 (by omega)
  rw [Nat.add_zero, if_pos rfl] at hfs
  have hdiv : bits.length / 8 = m := by omega
  rw [h, hfs, List.foldlM_map, ← h, hdiv]
  obtain ⟨u, hu, hP⟩ := foldlM_range_inv (BytesInv bits m)
    (fun bytes q => (packByte bits (q * 8)).bind (fun b =>
      if q * 8 / 8 < bytes.length then some (bytes.set (q * 8 / 8) b) else none))
    (List.replicate m 0) m
    ⟨List.length_replicate _ _, fun q _ hq => absurd hq (by omega)⟩
    (by
      intro q t hq ht
      have hq8 : q * 8 / 8 = q := by omega
      refine ⟨t.set q (byteOfBits (fun j => bits.getD (q * 8 + j) false)), ?_, ?_, ?_⟩
      · show (packByte bits (q * 8)).bind _ = _
        rw [packByte_full bits (q * 8) (by omega), hq8]
        show (if q < t.length then _ else none) = _
        rw [if_pos (by rw [ht.hlen]; exact hq)]
      · rw [List.length_set]; exact ht.hlen
      · intro r hr hlt
        rw [List.getElem_set]
        by_cases hqr : q = r
        · subst hqr; rw [if_pos rfl]
        · rw [if_neg hqr]
          exact ht.hbyte r (by rw [List.length_set] at hr; exact hr) (by omega))
  rw [hu]
  congr 1
  apply List.ext_getElem
  · rw [hP.hlen, List.length_map, List.length_range]
  · intro q h1 h2
    rw [hP.hbyte q h1 (by rw [hP.hlen] at h1; exact h1), List.getElem_map, List.getElem_range]

/-- On a bit sequence whose length is not a multiple of eight the conversion
panics: the inner loop reads `bits[i+j]` beyond the end in the last group. -/
theorem bitsToBytes_incomplete (bits : List Bool) (m r : Nat) (h : bits.length = 8 * m + r)
    (hr0 : 0 < r) (hr8 : r < 8) :
    bitsToBytes bits = none := by
  unfold bitsToBytes
  have hfs := forStep_eight m r hr8
  rw [if_neg (by omega)] at hfs
  rw [h, hfs, List.foldlM_map, foldlM_range_succ, ← h, packByte_incomplete bits (m * 8) (by omega)]
  exact bind_const_none _ _ (fun _ => rfl)
/-! ## Bytes and bits -/

theorem byteOfBits_congr (f g : Nat → Bool) (h : ∀ j, j < 8 → f j = g j) :
    byteOfBits f = byteOfBits g := by
  unfold byteOfBits
  have e : List.range 8 = [0, 1, 2, 3, 4, 5, 6, 7] := by decide
  rw [e]
  simp only [List.foldl_cons, List.foldl_nil]
  rw [h 0 (by omega), h 1 (by omega), h 2 (by omega), h 3 (by omega), h 4 (by omega),
    h 5 (by omega), h 6 (by omega), h 7 (by omega)]

set_option maxRecDepth 100000 in
theorem byteOfBits_byte_aux :
    ∀ x, x < 256 → byteOfBits (fun j => (x &&& (1 <<< j)) != 0) = x := by
  decide

/-- Packing the eight bits of a byte, least significant first, gives the byte back. -/
theorem byteOfBits_byte (x : Nat) (h : x < 256) :
    byteOfBits (fun j => (x &&& (1 <<< j)) != 0) = x := byteOfBits_byte_aux x h

theorem streamBit_eq (b : List Nat) (g : Nat) :
    streamBit b g = ((b.getD (g / 8) 0 &&& (1 <<< (g % 8))) != 0) := by
  unfold streamBit
  by_cases h : g / 8 ≥ b.length
  · rw [if_pos h, List.getD_eq_default _ _ h]
    simp
  · rw [if_neg h]
/-! ## Decoding the frames of a file -/

theorem getD_lt (b : List Nat) (hb : ∀ x ∈ b, x < 256) (k : Nat) : b.getD k 0 < 256 := by
  by_cases h : k < b.length
  · rw [List.getD_eq_getElem _ _ h]; exact hb _ (List.getElem_mem _)
  · rw [List.getD_eq_default _ _ (by omega)]; omega

/-- Decoding the image of a frame of the zero-extended bit stream gives the bytes
of that frame. -/
theorem decode_frame (b : List Nat) (hb : ∀ x ∈ b, x < 256) (f : Nat) :
    decode (encodeFrame (frameBits b f)).img = some (frameBytes b f) := by
  have hlen : (frameBits b f).length = 8 * (frameSizeBits / 8) := by
    rw [frameBits_length, frameSizeBits_eq]
  unfold decode frameBytes
  rw [decodeBits_encodeFrame_full _ (frameBits_length b f), bitsToBytes_full _ _ hlen]
  refine congrArg some (List.map_congr_left ?_)
  intro q hq
  have hq1 : q < frameSizeBits / 8 := List.mem_range.mp hq
  rw [← byteOfBits_byte _ (getD_lt b hb (f * (frameSizeBits / 8) + q))]
  apply byteOfBits_congr
  intro j hj
  have hin : q * 8 + j < (frameBits b f).length := by
    rw [frameBits_length]; rw [frameSizeBits_eq] at hq1 ⊢; omega
  rw [List.getD_eq_getElem _ _ hin, frameBits_getElem, streamBit_eq]
  have e1 : (f * frameSizeBits + (q * 8 + j)) / 8 = f * (frameSizeBits / 8) + q := by
    rw [frameSizeBits_eq]; omega
  have e2 : (f * frameSizeBits + (q * 8 + j)) % 8 = j := by
    rw [frameSizeBits_eq]; omega
  rw [e1, e2]

theorem flatten_frameBytes (b : List Nat) (n : Nat) :
    ((List.range n).map (frameBytes b)).flatten
      = (List.range (n * (frameSizeBits / 8))).map (fun k => b.getD k 0) := by
  induction n with
  | zero => simp
  | succ n ih =>
    have h1 : (List.map (frameBytes b) [n]).flatten = frameBytes b n := by
      rw [List.map_cons, List.map_nil, List.flatten_cons, List.flatten_nil, List.append_nil]
    have h2 : frameBytes b n
        = List.map ((fun k => b.getD k 0) ∘ fun x => n * (frameSizeBits / 8) + x)
            (List.range (frameSizeBits / 8)) :=
      List.map_congr_left (fun _ _ => rfl)
    rw [List.range_succ, List.map_append, List.flatten_append, ih, Nat.succ_mul, List.range_add,
      List.map_append, List.map_map, h1, h2]

theorem map_getD_range (b : List Nat) (m : Nat) (h : b.length ≤ m) :
    (List.range m).map (fun k => b.getD k 0) = b ++ List.replicate (m - b.length) 0 := by
  apply List.ext_getElem
  · simp only [List.length_map, List.length_range, List.length_append, List.length_replicate]
    omega
  · intro k h1 h2
    rw [List.getElem_map, List.getElem_range]
    by_cases hk : k < b.length
    · rw [List.getD_eq_getElem _ _ hk, List.getElem_append_left hk]
    · rw [List.getD_eq_default _ _ (by omega), List.getElem_append_right (by omega),
        List.getElem_replicate]

theorem totalFramesCnt_eq (n : Nat) : totalFramesCnt n = (n + 259199) / 259200 := by
  unfold totalFramesCnt; rw [frameSizeBits_eq]; omega

/-- The launches of `encode` are exactly the launches `frameTask b i` for the
frame indices `i` below the frame count. -/
theorem mem_launched_iff (b : List Nat) (t : FrameTask) :
    t ∈ (encode b).launched ↔ ∃ i, i < totalFramesCnt b.length ∧ t = frameTask b i := by
  by_cases h : 0 < b.length ∧ 8 * b.length < frameSizeBits
  · rw [encode_launches_short b h.1 h.2, totalFramesCnt_short _ h.1 h.2]
    constructor
    · intro ht
      refine ⟨0, by omega, ?_⟩
      simpa using ht
    · rintro ⟨i, hi, rfl⟩
      have : i = 0 := by omega
      subst this
      simp
  · rw [encode_launches_long b h, List.mem_map]
    constructor
    · rintro ⟨i, hi, rfl⟩
      exact ⟨i, List.mem_range.mp hi, rfl⟩
    · rintro ⟨i, hi, rfl⟩
      exact ⟨i, List.mem_range.mpr hi, rfl⟩
/-! ## Claims about `encodeFrame` -/

theorem blockColour_of_lt (bits : List Bool) (p : Nat) (h : p < bits.length) :
    blockColour bits p = if bits[p] then black else white := by
  unfold blockColour; rw [dif_pos h]

theorem black_ne_red : black ≠ red := by decide
theorem white_ne_red : white ≠ red := by decide

/-- C9. No padding on a full frame: for a bit array of length `frameSizeBits`
the loop of `encodeFrame` takes the branch that reads `bits[k]` at every one of
its `frameSizeBits` block visits (the counter ends at `frameSizeBits` and the
`else` branch, which prints `END`, is never taken), and every pixel of the
3840x2160 image is pure black or pure white, none is red. -/
theorem encodeFrame_full_no_padding (bits : List Bool) (h : bits.length = frameSizeBits) :
    (encodeFrame bits).k = frameSizeBits ∧ (encodeFrame bits).out = [] ∧
    (encodeFrame bits).img.Dx = 3840 ∧ (encodeFrame bits).img.Dy = 2160 ∧
    ∀ x y, x < 3840 → y < 2160 →
      ((encodeFrame bits).img.At x y = black ∨ (encodeFrame bits).img.At x y = white) ∧
      (encodeFrame bits).img.At x y ≠ red := by
  have inv := frameInv_run bits
  refine ⟨?_, ?_, inv.hDx, inv.hDy, ?_⟩
  · rw [inv.hk, h, Nat.min_self]
  · rw [inv.hout, h, Nat.sub_self, List.replicate_zero]
  · intro x y hx hy
    have hlt : blockPos 1080 x y < bits.length := by
      rw [h, frameSizeBits_eq]; unfold blockPos; omega
    rw [encodeFrame_At bits x y hx hy, blockColour_of_lt _ _ hlt]
    cases bits[blockPos 1080 x y]
    · exact ⟨Or.inr rfl, white_ne_red⟩
    · exact ⟨Or.inl rfl, black_ne_red⟩

/-- Witness for C9: the all-`false` bit array of length `frameSizeBits`. -/
theorem encodeFrame_full_no_padding_witness :
    (List.replicate frameSizeBits false).length = frameSizeBits ∧
    (encodeFrame (List.replicate frameSizeBits false)).k = frameSizeBits ∧
    (encodeFrame (List.replicate frameSizeBits false)).out = [] ∧
    (encodeFrame (List.replicate frameSizeBits false)).img.Dx = 3840 ∧
    (encodeFrame (List.replicate frameSizeBits false)).img.Dy = 2160 ∧
    ∀ x y, x < 3840 → y < 2160 →
      ((encodeFrame (List.replicate frameSizeBits false)).img.At x y = black ∨
        (encodeFrame (List.replicate frameSizeBits false)).img.At x y = white) ∧
      (encodeFrame (List.replicate frameSizeBits false)).img.At x y ≠ red :=
  ⟨List.length_replicate _ _,
    encodeFrame_full_no_padding (List.replicate frameSizeBits false) (List.length_replicate _ _)⟩
/-! ## Claims about the blocks of the frames of a file -/

theorem bit_test_iff (x j : Nat) :
    ((x &&& (1 <<< j)) != 0) = true ↔ (x >>> j) &&& 1 = 1 := by
  rw [Nat.one_shiftLeft, Nat.and_two_pow, Nat.and_one_is_mod, Nat.shiftRight_eq_div_pow]
  have hpos : 0 < 2 ^ j := Nat.pow_pos (by omega)
  have ht := @Nat.testBit_to_div_mod j x
  cases hb : x.testBit j
  · rw [hb] at ht
    have : ¬ (x / 2 ^ j % 2 = 1) := by simpa using ht.symm
    simp [this]
  · rw [hb] at ht
    have : x / 2 ^ j % 2 = 1 := by simpa using ht.symm
    simp [this, Nat.ne_of_gt hpos]

theorem frameTask_frameNumber (b : List Nat) (i : Nat) : (frameTask b i).frameNumber = i := by
  unfold frameTask; rfl

theorem frameTask_bitsBuffer (b : List Nat) (i : Nat) :
    (frameTask b i).bitsBuffer = frameBits b i := by
  simp only [frameTask]

theorem frameTask_fileName (b : List Nat) (i : Nat) :
    (frameTask b i).fileName = fileName (digitsOf (totalFramesCnt b.length)) i := by
  unfold frameTask; rfl

theorem launched_bits (b : List Nat) (t : FrameTask) (ht : t ∈ (encode b).launched) :
    t.frameNumber < totalFramesCnt b.length ∧ t.bitsBuffer = frameBits b t.frameNumber := by
  obtain ⟨i, hi, rfl⟩ := (mem_launched_iff b t).mp ht
  rw [frameTask_frameNumber, frameTask_bitsBuffer]
  exact ⟨hi, rfl⟩

theorem frameTask_mem (b : List Nat) (i : Nat) (hi : i < totalFramesCnt b.length) :
    frameTask b i ∈ (encode b).launched :=
  (mem_launched_iff b _).mpr ⟨i, hi, rfl⟩

/-- The colour of the block at traversal position `p` in the image of frame `f`. -/
theorem frame_block_colour (b : List Nat) (f p dx dy : Nat) (hp : p < frameSizeBits)
    (hdx : dx < 2) (hdy : dy < 2) :
    (encodeFrame (frameBits b f)).img.At (2 * (p / 1080) + dx) (2 * (p % 1080) + dy)
      = if streamBit b (f * frameSizeBits + p) then black else white := by
  have hp1 := hp
  rw [frameSizeBits_eq] at hp1
  have hpos : blockPos 1080 (2 * (p / 1080) + dx) (2 * (p % 1080) + dy) = p := by
    unfold blockPos; omega
  have hlt : p < (frameBits b f).length := by rw [frameBits_length]; exact hp
  rw [encodeFrame_At _ _ _ (by omega) (by omega), hpos, blockColour_of_lt _ _ hlt,
    frameBits_getElem]

/-- C2. LSB-first bit-to-block mapping: for byte index `i` and bit `j` of the
input, a launch for frame `i / 259200` exists, and in the image of every such
launch each of the four pixels of the 2x2 block at traversal position
`p = 8 * (i mod 259200) + j` (top-left pixel `x = 2 * (p / 1080)`,
`y = 2 * (p mod 1080)`) is pure black when `(b[i] >> j) & 1 = 1` and pure white
otherwise. -/
theorem lsb_first_block_mapping (b : List Nat) (i j : Nat) (hi : i < b.length) (hj : j < 8) :
    (∃ t ∈ (encode b).launched, t.frameNumber = i / 259200) ∧
    ∀ t ∈ (encode b).launched, t.frameNumber = i / 259200 →
      ∀ dx dy, dx < 2 → dy < 2 →
        (encodeFrame t.bitsBuffer).img.At
            (2 * ((8 * (i % 259200) + j) / 1080) + dx) (2 * ((8 * (i % 259200) + j) % 1080) + dy)
          = if (b[i] >>> j) &&& 1 = 1 then black else white := by
  have hN : i / 259200 < totalFramesCnt b.length := by
    rw [totalFramesCnt_eq]; omega
  refine ⟨⟨frameTask b (i / 259200), frameTask_mem b _ hN, frameTask_frameNumber b _⟩, ?_⟩
  intro t ht hf dx dy hdx hdy
  rw [(launched_bits b t ht).2, hf,
    frame_block_colour b _ _ dx dy (by rw [frameSizeBits_eq]; omega) hdx hdy, streamBit_eq]
  have e1 : (i / 259200 * frameSizeBits + (8 * (i % 259200) + j)) / 8 = i := by
    rw [frameSizeBits_eq]; omega
  have e2 : (i / 259200 * frameSizeBits + (8 * (i % 259200) + j)) % 8 = j := by
    rw [frameSizeBits_eq]; omega
  rw [e1, e2, List.getD_eq_getElem _ _ hi]
  by_cases hbit : (b[i] >>> j) &&& 1 = 1
  · rw [if_pos hbit, if_pos ((bit_test_iff _ _).mpr hbit)]
  · rw [if_neg hbit, if_neg (fun hc => hbit ((bit_test_iff _ _).mp hc))]

/-- Witness for C2: bit 3 of the one-byte file `0xFF`. -/
theorem lsb_first_block_mapping_witness :
    (0 < [255].length ∧ 3 < 8) ∧
    (∃ t ∈ (encode [255]).launched, t.frameNumber = 0 / 259200) ∧
    ∀ t ∈ (encode [255]).launched, t.frameNumber = 0 / 259200 →
      ∀ dx dy, dx < 2 → dy < 2 →
        (encodeFrame t.bitsBuffer).img.At
            (2 * ((8 * (0 % 259200) + 3) / 1080) + dx) (2 * ((8 * (0 % 259200) + 3) % 1080) + dy)
          = if ([255][0] >>> 3) &&& 1 = 1 then black else white :=
  ⟨⟨by decide, by decide⟩, lsb_first_block_mapping [255] 0 3 (by decide) (by decide)⟩

/-- C3 (evaluation of the code on the one-byte file `0xFF`). The last frame holds
`k = 8` bits of the file. Both launches for that frame produce an image whose
block at traversal position 8 (top-left pixel `(0, 16)`) and whose last block
(position `frameSizeBits - 1`, top-left pixel `(3838, 2158)`) are white, not the
padding colour red, and `encodeFrame` never takes its padding branch. -/
theorem one_byte_file_padding_is_white :
    (encode [255]).launched.map (fun t =>
        ((encodeFrame t.bitsBuffer).img.At 0 16, (encodeFrame t.bitsBuffer).img.At 3838 2158,
          (encodeFrame t.bitsBuffer).out))
      = [(white, white, []), (white, white, [])] := by
  have hshort : 8 * [255].length < frameSizeBits := by decide
  have hpix : ∀ p, 8 ≤ p → p < frameSizeBits →
      (encodeFrame (frameBits [255] 0)).img.At (2 * (p / 1080) + 0) (2 * (p % 1080) + 0)
        = white := by
    intro p h8 hp
    rw [frame_block_colour [255] 0 p 0 0 hp (by omega) (by omega),
      streamBit_of_le _ _ (by simp only [List.length_singleton]; omega)]
    rfl
  have h1 : (encodeFrame (frameBits [255] 0)).img.At 0 16 = white :=
    hpix 8 (by omega) (by decide)
  have h2 : (encodeFrame (frameBits [255] 0)).img.At 3838 2158 = white :=
    hpix 2073599 (by omega) (by decide)
  have h3 : (encodeFrame (frameBits [255] 0)).out = [] := by
    rw [(frameInv_run (frameBits [255] 0)).hout, frameBits_length, Nat.sub_self,
      List.replicate_zero]
  rw [encode_launches_short [255] (by decide) hshort, List.map_cons, List.map_cons, List.map_nil,
    frameTask_bitsBuffer, h1, h2, h3]
/-! ## Claims about whole files -/

theorem map_decode_frames (b : List Nat) (hb : ∀ x ∈ b, x < 256) (n : Nat) :
    ((List.range n).map (frameTask b)).map (fun t => decode (encodeFrame t.bitsBuffer).img)
      = ((List.range n).map (frameBytes b)).map some := by
  induction n with
  | zero => rw [List.range_zero, List.map_nil, List.map_nil, List.map_nil, List.map_nil]
  | succ n ih =>
    rw [List.range_succ, List.map_append, List.map_append, List.map_append, List.map_append, ih,
      List.map_cons, List.map_nil, List.map_cons, List.map_nil, List.map_cons, List.map_nil,
      List.map_cons, List.map_nil, frameTask_bitsBuffer, decode_frame b hb n]

theorem map_frameNumber_frames (b : List Nat) (n : Nat) :
    ((List.range n).map (frameTask b)).map (fun t => t.frameNumber) = List.range n := by
  induction n with
  | zero => rw [List.range_zero, List.map_nil, List.map_nil]
  | succ n ih =>
    rw [List.range_succ, List.map_append, List.map_append, ih, List.map_cons, List.map_nil,
      List.map_cons, List.map_nil, frameTask_frameNumber]

/-- C1. Round trip on exactly-full frames: when the length of `b` is a multiple
of 259200, `encode` launches exactly one task per frame index, in index order;
decoding the image of every task in that order succeeds, and the decoded
byte chunks concatenate to `b`. -/
theorem roundtrip_full_frames (b : List Nat) (hb : ∀ x ∈ b, x < 256)
    (hfull : b.length % 259200 = 0) :
    (encode b).launched.map (fun t => t.frameNumber) = List.range (b.length / 259200) ∧
    ∃ chunks : List (List Nat),
      (encode b).launched.map (fun t => decode (encodeFrame t.bitsBuffer).img)
        = chunks.map some ∧
      chunks.flatten = b := by
  have hlong : ¬ (0 < b.length ∧ 8 * b.length < frameSizeBits) := by
    rw [frameSizeBits_eq]; omega
  have hN : totalFramesCnt b.length = b.length / 259200 := by
    rw [totalFramesCnt_eq]; omega
  rw [encode_launches_long b hlong, hN]
  refine ⟨map_frameNumber_frames b _, (List.range (b.length / 259200)).map (frameBytes b),
    map_decode_frames b hb _, ?_⟩
  have hK : b.length / 259200 * (frameSizeBits / 8) = b.length := by
    rw [frameSizeBits_eq]; omega
  rw [flatten_frameBytes, hK, map_getD_range b _ (Nat.le_refl _), Nat.sub_self,
    List.replicate_zero, List.append_nil]

/-- Witness for C1: a file of 259200 bytes `0xA5`, exactly one frame. -/
theorem roundtrip_full_frames_witness :
    ((∀ x ∈ List.replicate 259200 165, x < 256) ∧ (List.replicate 259200 165).length % 259200 = 0) ∧
    (encode (List.replicate 259200 165)).launched.map (fun t => t.frameNumber)
      = List.range ((List.replicate 259200 165).length / 259200) ∧
    ∃ chunks : List (List Nat),
      (encode (List.replicate 259200 165)).launched.map
          (fun t => decode (encodeFrame t.bitsBuffer).img)
        = chunks.map some ∧
      chunks.flatten = List.replicate 259200 165 :=
  ⟨⟨fun x hx => by rw [List.eq_of_mem_replicate hx]; decide,
      by rw [List.length_replicate]⟩,
    roundtrip_full_frames (List.replicate 259200 165)
      (fun x hx => by rw [List.eq_of_mem_replicate hx]; decide)
      (by rw [List.length_replicate])⟩

/-- On a file of at least 259200 bytes `encode` launches exactly one task per
frame index, in index order; decoding the image of every launch in that order
succeeds, and the decoded byte chunks concatenate to `b` followed by exactly
`N * 259200 - len(b)` zero bytes, `N = ceil(len(b) / 259200)`. -/
theorem zero_extension_long (b : List Nat) (hb : ∀ x ∈ b, x < 256)
    (hlong : 259200 ≤ b.length) :
    (encode b).launched.map (fun t => t.frameNumber)
      = List.range ((b.length + 259199) / 259200) ∧
    ∃ chunks : List (List Nat),
      (encode b).launched.map (fun t => decode (encodeFrame t.bitsBuffer).img)
        = chunks.map some ∧
      chunks.flatten
        = b ++ List.replicate ((b.length + 259199) / 259200 * 259200 - b.length) 0 := by
  have hcase : ¬ (0 < b.length ∧ 8 * b.length < frameSizeBits) := by
    rw [frameSizeBits_eq]; omega
  rw [encode_launches_long b hcase, totalFramesCnt_eq]
  refine ⟨map_frameNumber_frames b _,
    (List.range ((b.length + 259199) / 259200)).map (frameBytes b),
    map_decode_frames b hb _, ?_⟩
  have hK : (b.length + 259199) / 259200 * (frameSizeBits / 8)
      = (b.length + 259199) / 259200 * 259200 := by
    rw [frameSizeBits_eq]
  rw [flatten_frameBytes, hK, map_getD_range b _ (by omega)]

theorem fileName_one_zero : fileName (digitsOf (totalFramesCnt [0].length)) 0 = "tmp/out_0.png" := by
  have h1 : totalFramesCnt [0].length = 1 := totalFramesCnt_short _ (by decide) (by decide)
  have h2 : digitsOf 1 = 1 := by simp [digitsOf]
  rw [h1, h2]
  decide

/-- C6 (evaluation of the code on a one-byte file). The frame count is 1, but
`encode` launches two tasks: one when the last bit of the file has been written
into the buffer and one at the end of the frame. Both are for frame 0 and both
save to `tmp/out_0.png`. -/
theorem one_byte_file_launches_twice :
    totalFramesCnt [0].length = 1 ∧
    (encode [0]).launched.map (fun t => (t.frameNumber, t.fileName))
      = [(0, "tmp/out_0.png"), (0, "tmp/out_0.png")] := by
  refine ⟨totalFramesCnt_short _ (by decide) (by decide), ?_⟩
  rw [encode_launches_short [0] (by decide) (by decide), List.map_cons, List.map_cons,
    List.map_nil, frameTask_frameNumber, frameTask_fileName, fileName_one_zero]

/-! ## Claims about `decode` -/

/-- C4. Padding exclusion on decode: on a 3840x2160 image whose first `k` blocks
in traversal order have a pure-black or pure-white top-left pixel and whose
remaining blocks have a red top-left pixel, the scan of `decode` returns
exactly `k` bits, and bit `p` is `true` exactly when block `p` is black. -/
theorem decode_scan_excludes_padding (img : Image) (k : Nat)
    (hx : img.Dx = 3840) (hy : img.Dy = 2160) (hk : k < frameSizeBits)
    (hbits : ∀ p, p < k →
      img.At (2 * (p / 1080)) (2 * (p % 1080)) = black
        ∨ img.At (2 * (p / 1080)) (2 * (p % 1080)) = white)
    (hpad : ∀ p, k ≤ p → p < frameSizeBits →
      img.At (2 * (p / 1080)) (2 * (p % 1080)) = red) :
    (decodeBits img).length = k ∧
    ∀ p (h : p < (decodeBits img).length),
      ((decodeBits img)[p] = true ↔ img.At (2 * (p / 1080)) (2 * (p % 1080)) = black) := by
  have hC := frameSizeBits_eq
  have hsplit : frameSizeBits = k + (frameSizeBits - k) := by omega
  have hscan : decodeBits img
      = (List.range k).map
          (fun p => decide (img.At (2 * (p / 1080)) (2 * (p % 1080)) = black)) := by
    rw [decodeBits_eq img 1920 1080 hx hy, blocks_eq, hsplit, List.range_add,
      List.filterMap_append]
    have h1 : (List.range k).filterMap
          (fun p => classify (img.At (p / 1080 * 2) (p % 1080 * 2)))
        = (List.range k).filterMap
            (some ∘ fun p => decide (img.At (2 * (p / 1080)) (2 * (p % 1080)) = black)) := by
      apply List.filterMap_congr
      intro p hp
      have hp1 := List.mem_range.mp hp
      rw [Nat.mul_comm (p / 1080) 2, Nat.mul_comm (p % 1080) 2]
      rcases hbits p hp1 with hb | hw
      · simp [hb, classify_black]
      · simp [hw, classify_white]
        decide
    have h2 : (List.map (fun x => k + x) (List.range (frameSizeBits - k))).filterMap
          (fun p => classify (img.At (p / 1080 * 2) (p % 1080 * 2))) = [] := by
      rw [List.filterMap_eq_nil_iff]
      intro p hp
      obtain ⟨q, hq, rfl⟩ := List.mem_map.mp hp
      have hq1 := List.mem_range.mp hq
      rw [Nat.mul_comm ((k + q) / 1080) 2, Nat.mul_comm ((k + q) % 1080) 2,
        hpad (k + q) (by omega) (by omega), classify_red]
    rw [h1, h2, List.filterMap_eq_map, List.append_nil]
  constructor
  · rw [hscan, List.length_map, List.length_range]
  · intro p h
    have e : (decodeBits img)[p]
        = decide (img.At (2 * (p / 1080)) (2 * (p % 1080)) = black) := by
      simp only [hscan, List.getElem_map, List.getElem_range]
    rw [e, decide_eq_true_iff]
/-! ## File names -/

theorem bareDigits_zero : bareDigits 0 = [] := by
  unfold bareDigits; rw [Nat.digits_zero]; rfl

theorem bareDigits_pos (n : Nat) (h : 0 < n) :
    bareDigits n = bareDigits (n / 10) ++ [Nat.digitChar (n % 10)] := by
  unfold bareDigits
  rw [Nat.digits_def' (by omega) h, List.reverse_cons, List.map_append]
  rfl

theorem pad_bareDigits (w n : Nat) (h : n < 10 ^ w) :
    List.replicate (w - (bareDigits n).length) '0' ++ bareDigits n = fixedWidth w n := by
  induction w generalizing n with
  | zero =>
    have : n = 0 := by simpa using h
    subst this
    rw [bareDigits_zero]; rfl
  | succ w ih =>
    rcases Nat.eq_zero_or_pos n with h0 | h0
    · subst h0
      have ih0 := ih 0 (Nat.pow_pos (by omega))
      rw [bareDigits_zero] at ih0 ⊢
      simp only [List.length_nil, Nat.sub_zero, List.append_nil] at ih0 ⊢
      rw [fixedWidth, ← ih0, List.replicate_succ']
      rfl
    · have hdiv : n / 10 < 10 ^ w := by
        rw [Nat.pow_succ] at h; omega
      rw [fixedWidth, ← ih (n / 10) hdiv, bareDigits_pos n h0, List.length_append,
        List.length_singleton, Nat.add_sub_add_right, List.append_assoc]

theorem zeroPad_eq_fixedWidth (w n : Nat) (hw : 1 ≤ w) (h : n < 10 ^ w) :
    zeroPad w n = fixedWidth w n := by
  rw [← pad_bareDigits w n h]
  unfold zeroPad decimal
  rcases Nat.eq_zero_or_pos n with h0 | h0
  · subst h0
    rw [if_pos rfl, bareDigits_zero]
    obtain ⟨v, rfl⟩ : ∃ v, w = v + 1 := ⟨w - 1, by omega⟩
    simp only [List.length_singleton, List.length_nil, Nat.add_sub_cancel, Nat.sub_zero,
      List.append_nil]
    rw [List.replicate_succ']
  · rw [if_neg (by omega)]
    rfl

theorem fixedWidth_length (w n : Nat) : (fixedWidth w n).length = w := by
  induction w generalizing n with
  | zero => rfl
  | succ w ih => rw [fixedWidth, List.length_append, ih, List.length_singleton]

theorem lex_append_of_length_eq {l₁ l₂ : List Char} (h : List.Lex (fun x1 x2 => x1 < x2) l₁ l₂)
    (hlen : l₁.length = l₂.length) (s t : List Char) :
    List.Lex (fun x1 x2 => x1 < x2) (l₁ ++ s) (l₂ ++ t) := by
  induction h with
  | nil => simp at hlen
  | cons _ ih =>
    simp only [List.length_cons, Nat.add_right_cancel_iff] at hlen
    exact List.Lex.cons (ih hlen)
  | rel hr => exact List.Lex.rel hr

theorem digitChar_lt : ∀ d1, d1 < 10 → ∀ d2, d2 < 10 → d1 < d2 →
    Nat.digitChar d1 < Nat.digitChar d2 := by
  decide

theorem fixedWidth_lex (w a b : Nat) (hab : a < b) (hb : b < 10 ^ w) :
    List.Lex (fun x1 x2 => x1 < x2) (fixedWidth w a) (fixedWidth w b) := by
  induction w generalizing a b with
  | zero => simp at hb; omega
  | succ w ih =>
    rw [fixedWidth, fixedWidth]
    have hb10 : b / 10 < 10 ^ w := by rw [Nat.pow_succ] at hb; omega
    rcases Nat.lt_or_ge (a / 10) (b / 10) with hlt | hge
    · exact lex_append_of_length_eq (ih _ _ hlt hb10)
        (by rw [fixedWidth_length, fixedWidth_length]) _ _
    · have heq : a / 10 = b / 10 := by omega
      rw [heq]
      exact List.Lex.append_left _
        (List.Lex.rel (digitChar_lt _ (by omega) _ (by omega) (by omega))) _

theorem digitsOf_eq (n : Nat) (h : 1 ≤ n) : digitsOf n = (decimal n).length := by
  unfold digitsOf decimal
  rw [if_neg (by omega), List.length_map, List.length_reverse,
    Nat.digits_len 10 n (by omega) (by omega)]

theorem lt_pow_digitsOf (n : Nat) (h : 1 ≤ n) : n < 10 ^ digitsOf n := by
  unfold digitsOf
  rw [← Nat.digits_len 10 n (by omega) (by omega)]
  exact Nat.lt_base_pow_length_digits (by omega)

theorem fileName_toList (w n : Nat) :
    (fileName w n).toList = "tmp/out_".toList ++ (zeroPad w n ++ ".png".toList) := by
  unfold fileName
  rw [List.append_assoc]
  rfl

/-- C7. Sortable frame names: for a frame count `N ≥ 1` the pad width computed
by `encode` is the number of decimal digits of `N`; with that width the file
names of the indices below `N` all have the same length, and the name of a
smaller index is strictly smaller in lexicographic order. -/
theorem fileName_sortable (N : Nat) (hN : 1 ≤ N) :
    digitsOf N = (decimal N).length ∧
    (∀ i, i < N → (fileName (digitsOf N) i).length = digitsOf N + 12) ∧
    ∀ i j, i < j → j < N → fileName (digitsOf N) i < fileName (digitsOf N) j := by
  have hw : 1 ≤ digitsOf N := by unfold digitsOf; omega
  have hpow := lt_pow_digitsOf N hN
  refine ⟨digitsOf_eq N hN, ?_, ?_⟩
  · intro i hi
    unfold fileName
    rw [String.length_mk, zeroPad_eq_fixedWidth _ _ hw (by omega), List.length_append,
      List.length_append, fixedWidth_length]
    show 8 + digitsOf N + 4 = _
    omega
  · intro i j hij hj
    rw [String.lt_iff_toList_lt, fileName_toList, fileName_toList,
      zeroPad_eq_fixedWidth _ _ hw (by omega), zeroPad_eq_fixedWidth _ _ hw (by omega)]
    exact List.Lex.append_left _
      (lex_append_of_length_eq (fixedWidth_lex _ i j hij (by omega))
        (by rw [fixedWidth_length, fixedWidth_length]) _ _) _

/-- Witness for C7: twelve frames, pad width two. -/
theorem fileName_sortable_witness :
    1 ≤ 12 ∧
    digitsOf 12 = (decimal 12).length ∧
    (∀ i, i < 12 → (fileName (digitsOf 12) i).length = digitsOf 12 + 12) ∧
    ∀ i j, i < j → j < 12 → fileName (digitsOf 12) i < fileName (digitsOf 12) j :=
  ⟨by decide, fileName_sortable 12 (by decide)⟩
/-! ## Sample images -/

theorem paddedSample_At (p : Nat) (hp : p < frameSizeBits) :
    paddedSample.At (2 * (p / 1080)) (2 * (p % 1080))
      = if p < 5 then (if p % 2 = 0 then black else white) else red := by
  rw [frameSizeBits_eq] at hp
  have hpos : blockPos 1080 (2 * (p / 1080)) (2 * (p % 1080)) = p := by
    unfold blockPos; omega
  have hin : 2 * (p / 1080) < paddedSample.Dx ∧ 2 * (p % 1080) < paddedSample.Dy := by
    show 2 * (p / 1080) < 3840 ∧ 2 * (p % 1080) < 2160
    omega
  unfold Image.At
  rw [if_pos hin]
  show (if blockPos 1080 (2 * (p / 1080)) (2 * (p % 1080)) < 5 then
      (if blockPos 1080 (2 * (p / 1080)) (2 * (p % 1080)) % 2 = 0 then black else white)
    else red) = _
  rw [hpos]

theorem paddedSample_bits (p : Nat) (hp : p < 5) :
    paddedSample.At (2 * (p / 1080)) (2 * (p % 1080)) = black
      ∨ paddedSample.At (2 * (p / 1080)) (2 * (p % 1080)) = white := by
  rw [paddedSample_At p (by rw [frameSizeBits_eq]; omega), if_pos hp]
  by_cases h : p % 2 = 0
  · rw [if_pos h]; exact Or.inl rfl
  · rw [if_neg h]; exact Or.inr rfl

theorem paddedSample_pad (p : Nat) (h5 : 5 ≤ p) (hp : p < frameSizeBits) :
    paddedSample.At (2 * (p / 1080)) (2 * (p % 1080)) = red := by
  rw [paddedSample_At p hp, if_neg (by omega)]

/-- Witness for C4: the image `paddedSample` with `k = 5`. -/
theorem decode_scan_excludes_padding_witness :
    (paddedSample.Dx = 3840 ∧ paddedSample.Dy = 2160 ∧ 5 < frameSizeBits ∧
      (∀ p, p < 5 →
        paddedSample.At (2 * (p / 1080)) (2 * (p % 1080)) = black
          ∨ paddedSample.At (2 * (p / 1080)) (2 * (p % 1080)) = white) ∧
      (∀ p, 5 ≤ p → p < frameSizeBits →
        paddedSample.At (2 * (p / 1080)) (2 * (p % 1080)) = red)) ∧
    (decodeBits paddedSample).length = 5 ∧
    ∀ p (h : p < (decodeBits paddedSample).length),
      ((decodeBits paddedSample)[p] = true
        ↔ paddedSample.At (2 * (p / 1080)) (2 * (p % 1080)) = black) :=
  ⟨⟨rfl, rfl, by decide, paddedSample_bits, paddedSample_pad⟩,
    decode_scan_excludes_padding paddedSample 5 rfl rfl (by decide)
      paddedSample_bits paddedSample_pad⟩

/-- C5 (evaluation of the code on a 2x2 image that is one black block). The scan
yields the single bit `true` (`m = 0`, `r = 1`); the conversion allocates
`1 / 8 = 0` bytes and then panics reading `bits[1]`, so `decode` returns no
bytes at all. -/
theorem decode_single_block_panics :
    decodeBits (uniformImage 2 2 black) = [true] ∧
    bitsToBytes [true] = none ∧
    decode (uniformImage 2 2 black) = none := by
  decide

/-- C8 (evaluation of the code on a 16x2 image, eight blocks, whose pixels all
have the colour `(0, 0, 0, 128)`, half-transparent and so not pure black). The
sampled pixels are classified as black: the scan yields eight `true` bits and
`decode` returns the byte `0xFF`. The same happens for the fully transparent
red `(255, 0, 0, 0)`. -/
theorem decode_counts_transparent_pixels :
    classify ⟨0, 0, 0, 128⟩ = some true ∧
    decodeBits (uniformImage 16 2 ⟨0, 0, 0, 128⟩) = List.replicate 8 true ∧
    decode (uniformImage 16 2 ⟨0, 0, 0, 128⟩) = some [255] ∧
    decode (uniformImage 16 2 ⟨255, 0, 0, 0⟩) = some [255] := by
  decide

end ByteReel
